import Mathlib

/-!
# Verification of the mesosdef dependency-resolution and deployment engine

Shallow embedding of the core of `kbolino/mesosdef` (Go):

* `model/graph.go` — filter matching (`filterMatches`), dependency resolution
  (`findDependents`), glob-to-regexp conversion (`globToRegexp`), graph
  construction (`Graph.Build`), cycle enumeration (`Graph.Cycles`) and
  reverse-topological ordering (`Graph.DeployOrder`).
* `deploy/deploy.go` — the per-deployment two-phase state machine
  (`ready`/`deploy`/`cancel` and the two one-shot completion signals).
* `deploy/graph.go` — the sequential prefix of `GraphDeployer.Deploy`.

Go strings are modelled as Lean `String` (Go iterates runes; Lean `Char`
is a unicode scalar value, matching Go's rune iteration on valid UTF-8).
Go `error` values are modelled as `GoErr := String` carrying the
`fmt.Errorf` message; `nil`/non-`nil` errors become `Option GoErr`.
Fallible functions return `Except GoErr α`; where a Go nil-pointer panic
is reachable, a dedicated result type with a `panicked` constructor is used.
The third-party `yourbasic/graph` library (not vendored in the repository)
is embedded from its documented, stable semantics: `Mutable` adjacency
structure, `AddCost` overwriting an existing edge cost, `TopSort` being
Kahn's indegree/queue algorithm, and `StrongComponents` computing the
partition of vertices into strongly connected components.  Go map
iteration order is unspecified; the embedding fixes insertion order via
association lists (all properties proved here are independent of that
order).
-/

namespace Mesosdef

/-- A Go error, identified by its `fmt.Errorf` message. -/
abbrev GoErr := String

/-- `model.DeploymentRef` — the `(type, name)` identity of a deployment. -/
structure DeploymentRef where
  type : String
  name : String
deriving DecidableEq, Repr, Inhabited

/-- `model.Filter` — a predicate block narrowing dependency targets. -/
structure Filter where
  key : String
  value : String
  values : List String
  glob : Bool
  regexp : Bool
  negate : Bool
deriving DecidableEq, Repr

/-- `model.DependencySpec` — an abstract dependency relationship. -/
structure DependencySpec where
  type : String
  name : String
  waitForHealthy : Bool
  filters : List Filter
deriving DecidableEq, Repr

/-- `model.Deployment` — one deployment record from the configuration. -/
structure Deployment where
  type : String
  name : String
  framework : String
  deploy : String
  labels : List String
  dependencies : List DependencySpec
  dependencyOf : List DependencySpec
deriving DecidableEq, Repr

/-- `(*Deployment).Ref` in `model/data.go`. -/
def Deployment.Ref (d : Deployment) : DeploymentRef :=
  ⟨d.type, d.name⟩

/-! ## Glob-to-regexp conversion (`globToRegexp` in `model/graph.go`) -/

/-- The ASCII metacharacters escaped by Go's `regexp.QuoteMeta`. -/
def regexpSpecialChars : List Char :=
  ['\\', '.', '+', '*', '?', '(', ')', '|', '[', ']', '\x7b', '\x7d', '^', '$']

/-- Go's `regexp.QuoteMeta` applied to a single rune. -/
def quoteMeta (c : Char) : String :=
  if regexpSpecialChars.contains c then String.mk ['\\', c] else String.mk [c]

/-- The rune loop of `globToRegexp`, carrying the `backslash` escape flag
and the accumulated output.  Note that, as in the source, the branches for
`?`, `[` and `]` do not clear the `backslash` flag, and a trailing
backslash is silently dropped. -/
def globToRegexpLoop : List Char → Bool → String → Except GoErr String
  | [], _, acc => .ok (acc ++ "$")
  | c :: rest, backslash, acc =>
    if c = '\\' then
      if backslash then globToRegexpLoop rest false (acc ++ "\\\\")
      else globToRegexpLoop rest true acc
    else if c = '*' then
      if backslash then globToRegexpLoop rest false (acc ++ "\\*")
      else globToRegexpLoop rest backslash (acc ++ ".*")
    else if c = '?' then
      if backslash then globToRegexpLoop rest backslash (acc ++ "\\?")
      else globToRegexpLoop rest backslash (acc ++ ".")
    else if c = '[' then
      if backslash then globToRegexpLoop rest backslash (acc ++ "\\[")
      else .error "character classes not supported in glob yet"
    else if c = ']' then
      if backslash then globToRegexpLoop rest backslash (acc ++ "\\]")
      else .error "character classes not supported in glob yet"
    else
      if backslash then
        .error ("unknown escape sequence \"\\" ++ String.mk [c] ++ "\"")
      else globToRegexpLoop rest backslash (acc ++ quoteMeta c)

/-- `globToRegexp` in `model/graph.go`: convert a glob pattern to an
anchored regular expression. -/
def globToRegexp (glob : String) : Except GoErr String :=
  globToRegexpLoop glob.toList false "^"

/-! ## A model of the fragment of Go `regexp` used by the engine

`filterMatches` passes patterns to Go's `regexp.Compile` /
`(*Regexp).MatchString`.  The engine itself only ever produces anchored
patterns of the shape emitted by `globToRegexp` (a `^…$` wrapped sequence
of literal runes, escaped metacharacters, `.` and `.*`), so the compiler
is modelled for exactly that fragment and rejects anything else.  All
theorems below are either quantified over an arbitrary compiler or never
reach regexp compilation, so nothing proved depends on the fragment's
boundary. -/

/-- A regular-expression matcher: total match of a whole string. -/
abbrev Matcher := String → Bool

/-- An abstract stand-in for Go's `regexp.Compile`. -/
abbrev RegexpCompiler := String → Except GoErr Matcher

/-- An atom of the modelled regexp fragment: `.` or a literal rune. -/
inductive RAtom where
  | anyChar : RAtom
  | lit : Char → RAtom
deriving DecidableEq, Repr

/-- A piece: an atom, possibly starred. -/
inductive RPiece where
  | once : RAtom → RPiece
  | star : RAtom → RPiece
deriving DecidableEq, Repr

/-- Parse the body (between `^` and `$`) of a fragment pattern. -/
def parsePieces : List Char → Option (List RPiece)
  | [] => some []
  | '\\' :: c :: '*' :: rest => (parsePieces rest).map (RPiece.star (.lit c) :: ·)
  | '\\' :: c :: rest => (parsePieces rest).map (RPiece.once (.lit c) :: ·)
  | '\\' :: [] => none
  | '.' :: '*' :: rest => (parsePieces rest).map (RPiece.star .anyChar :: ·)
  | '.' :: rest => (parsePieces rest).map (RPiece.once .anyChar :: ·)
  | c :: '*' :: rest =>
    if regexpSpecialChars.contains c then none
    else (parsePieces rest).map (RPiece.star (.lit c) :: ·)
  | c :: rest =>
    if regexpSpecialChars.contains c then none
    else (parsePieces rest).map (RPiece.once (.lit c) :: ·)

/-- Does a single atom match a single character? -/
def atomMatch : RAtom → Char → Bool
  | .anyChar, _ => true
  | .lit c, x => c = x

/-- Standard backtracking matcher for a piece sequence against a string. -/
def piecesMatch : List RPiece → List Char → Bool
  | [], [] => true
  | [], _ :: _ => false
  | .once _ :: _, [] => false
  | .once a :: ps, x :: xs => atomMatch a x && piecesMatch ps xs
  | .star _ :: ps, [] => piecesMatch ps []
  | .star a :: ps, x :: xs =>
    piecesMatch ps (x :: xs) || (atomMatch a x && piecesMatch (.star a :: ps) xs)
termination_by ps s => (ps.length, s.length)

/-- The concrete compiler used to instantiate the embedding: accepts the
anchored fragment produced by `globToRegexp`, rejects everything else. -/
def goRegexpCompile : RegexpCompiler := fun pat =>
  match pat.toList with
  | '^' :: rest =>
    if rest.getLast? = some '$' then
      match parsePieces rest.dropLast with
      | some ps => .ok (fun s => piecesMatch ps s.toList)
      | none => .error "error parsing regexp"
    else .error "unsupported regexp"
  | _ => .error "unsupported regexp"

/-! ## Filter matching (`filterMatches` in `model/graph.go`) -/

/-- The body of the `for _, val := range values` loop of `filterMatches`
for one candidate value: compile (via glob if requested) and test every
element of `compareTo`, or compare literally. -/
def valMatches (compile : RegexpCompiler) (filter : Filter) (compareTo : List String)
    (val : String) : Except GoErr Bool :=
  if filter.glob || filter.regexp then do
    let valRegexp ←
      if filter.glob then
        match globToRegexp val with
        | .ok r => pure r
        | .error e => .error ("invalid glob pattern \"" ++ val ++ "\": " ++ e)
      else pure val
    let compiled ←
      match compile valRegexp with
      | .ok m => pure m
      | .error e => .error ("invalid regexp pattern \"" ++ valRegexp ++ "\": " ++ e)
    pure (compareTo.any compiled)
  else
    pure (compareTo.any (fun cmp => val == cmp))

/-- The value loop of `filterMatches`: first matching value wins. -/
def anyValMatches (compile : RegexpCompiler) (filter : Filter) (compareTo : List String) :
    List String → Except GoErr Bool
  | [] => pure false
  | val :: rest => do
    if ← valMatches compile filter compareTo val then pure true
    else anyValMatches compile filter compareTo rest

/-- The `values` computation of `filterMatches`: `filter.values` when
non-empty, else the singleton `filter.value`, which must be set. -/
def filterValues (filter : Filter) : Except GoErr (List String) :=
  if filter.values.isEmpty then
    if filter.value = "" then
      .error "filter must have one of value or values attribute"
    else pure [filter.value]
  else pure filter.values

/-- The `compareTo` computation of `filterMatches`: dispatch on the key. -/
def filterCompareTo (filter : Filter) (deployment : Deployment) :
    Except GoErr (List String) :=
  if filter.key = "name" then pure [deployment.name]
  else if filter.key = "labels" then pure deployment.labels
  else
    .error ("unknown filter key \"" ++ filter.key ++
      "\", only \"name\" and \"labels\" supported")

/-- `filterMatches` in `model/graph.go`: evaluate one filter against one
deployment record. -/
def filterMatches (compile : RegexpCompiler) (filter : Filter) (deployment : Deployment) :
    Except GoErr Bool := do
  let values ← filterValues filter
  let compareTo ← filterCompareTo filter deployment
  if compareTo.isEmpty then
    pure filter.negate
  else if ← anyValMatches compile filter compareTo values then
    pure !filter.negate
  else
    pure filter.negate

/-- `filter` with its `negate` flag flipped. -/
def flipNegate (f : Filter) : Filter :=
  { f with negate := !f.negate }

/-! ## Dependency resolution (`findDependents` in `model/graph.go`) -/

/-- The `switch dependency.Type` of `findDependents`: `ok true` means the
record is considered, `ok false` means it is skipped (`continue`). -/
def checkDependencyType (depType : String) (d : Deployment) : Except GoErr Bool :=
  if depType = "*" then pure true
  else if depType = "marathon_app" ∨ depType = "chronos_job" then
    pure (depType = d.type)
  else
    .error ("unknown dependency type \"" ++ depType ++
      "\", only \"*\", \"marathon_app\", and \"chronos_job\" supported")

/-- The `for i := range filters` conjunction of `findDependents`
(short-circuits on the first non-match, propagates the first error). -/
def allFiltersMatch (compile : RegexpCompiler) (d : Deployment) :
    List Filter → Except GoErr Bool
  | [] => pure true
  | f :: rest => do
    if ← filterMatches compile f d then allFiltersMatch compile d rest
    else pure false

/-- The record loop of `findDependents`, over `(index, record)` pairs. -/
def findDependentsLoop (compile : RegexpCompiler) (depType : String)
    (filters : List Filter) : List (Nat × Deployment) → Except GoErr (List Nat)
  | [] => pure []
  | (i, d) :: rest => do
    if ← checkDependencyType depType d then
      if ← allFiltersMatch compile d filters then
        pure (i :: (← findDependentsLoop compile depType filters rest))
      else
        findDependentsLoop compile depType filters rest
    else
      findDependentsLoop compile depType filters rest

/-- The filter synthesized for a named dependency. -/
def nameFilter (name : String) : Filter :=
  ⟨"name", name, [], false, false, false⟩

/-- `findDependents` in `model/graph.go`: expand a `DependencySpec` into
the indices of the deployment records it targets. -/
def findDependents (compile : RegexpCompiler) (spec : DependencySpec)
    (deployments : List Deployment) : Except GoErr (List Nat) := do
  let filters ←
    if spec.name ≠ "" then
      if !spec.filters.isEmpty then
        .error "dependency can have name attribute or filter blocks but not both"
      else pure [nameFilter spec.name]
    else pure spec.filters
  findDependentsLoop compile spec.type filters deployments.enum

/-! ## The weighted directed graph (`yourbasic/graph.Mutable`)

`graph.Mutable` stores, for each vertex, a map from target vertex to edge
cost.  The embedding uses association lists in insertion order; Go map
iteration order is unspecified, and every property proved below is
independent of the iteration order. -/

/-- `graph.Mutable`: adjacency structure of `n = adj.length` vertices. -/
structure RawGraph where
  adj : List (List (Nat × Int))
deriving DecidableEq, Repr

/-- `graph.New(n)`: a graph with `n` vertices and no edges. -/
def RawGraph.new (n : Nat) : RawGraph :=
  ⟨List.replicate n []⟩

/-- Insert-or-overwrite of one association-list entry, mirroring
`g.edges[v][w] = c` on a Go map. -/
def upsertEdge : List (Nat × Int) → Nat → Int → List (Nat × Int)
  | [], w, c => [(w, c)]
  | (w', c') :: rest, w, c =>
    if w' = w then (w, c) :: rest else (w', c') :: upsertEdge rest w c

/-- `(*Mutable).AddCost(v, w, c)`: inserts the edge `v → w` with cost `c`,
overwriting the previous cost if the edge already exists.  (Go panics when
`v` or `w` is out of range; `Build` only ever passes valid indices.) -/
def RawGraph.addCost (g : RawGraph) (v w : Nat) (c : Int) : RawGraph :=
  ⟨g.adj.set v (upsertEdge (g.adj.getD v []) w c)⟩

/-- The number of vertices, `(*Mutable).Order()`. -/
def RawGraph.order (g : RawGraph) : Nat :=
  g.adj.length

/-- Decidable edge test: is there an edge `u → w`? -/
def edgeB (adj : List (List (Nat × Int))) (u w : Nat) : Bool :=
  ((adj.getD u []).map Prod.fst).contains w

/-- The edge relation of a raw graph. -/
def EdgeRel (g : RawGraph) (u w : Nat) : Prop :=
  edgeB g.adj u w = true

/-- A directed cycle exists (including self-loops). -/
def HasCycle (g : RawGraph) : Prop :=
  ∃ v, Relation.TransGen (EdgeRel g) v v

/-- Well-formedness of an adjacency structure: targets in range and
per-vertex association lists with distinct keys (they model Go maps).
Every graph produced by `Graph.Build` satisfies this. -/
def RawGraph.WF (g : RawGraph) : Prop :=
  ∀ l ∈ g.adj, (∀ p ∈ l, p.1 < g.adj.length) ∧ (l.map Prod.fst).Nodup

instance (g : RawGraph) : Decidable g.WF := by
  unfold RawGraph.WF; infer_instance

/-! ## Kahn's algorithm (`graph.TopSort` of `yourbasic/graph`)

`TopSort` computes in-degrees, seeds a FIFO queue with the zero-in-degree
vertices in index order, and repeatedly pops a vertex, appends it to the
output and decrements its successors' in-degrees, enqueueing those that
reach zero.  It reports `ok = false` when fewer than `Order()` vertices
were popped. -/

/-- In-degree accumulation for one adjacency list (`indegree[w]++`). -/
def bumpTargets : List (Nat × Int) → List Int → List Int
  | [], indeg => indeg
  | (w, _) :: rest, indeg => bumpTargets rest (indeg.set w (indeg.getD w 0 + 1))

/-- In-degree accumulation over all adjacency lists. -/
def indegAux : List (List (Nat × Int)) → List Int → List Int
  | [], indeg => indeg
  | l :: rest, indeg => indegAux rest (bumpTargets l indeg)

/-- The initial in-degree array of `TopSort`. -/
def RawGraph.indegInit (g : RawGraph) : List Int :=
  indegAux g.adj (List.replicate g.adj.length 0)

/-- The mutable state of Kahn's loop. -/
structure KahnState where
  indeg : List Int
  queue : List Nat
  out : List Nat
deriving Repr

/-- Processing the out-edges of a popped vertex: decrement each target's
in-degree and enqueue targets that reach zero. -/
def kahnVisit : List (Nat × Int) → KahnState → KahnState
  | [], s => s
  | (w, _) :: rest, s =>
    let deg := s.indeg.getD w 0 - 1
    kahnVisit rest
      ⟨s.indeg.set w deg, if deg = 0 then s.queue ++ [w] else s.queue, s.out⟩

/-- The main loop of `TopSort`.  The loop pops exactly one vertex per
iteration and every vertex is enqueued at most once, so `order` units of
fuel always suffice (proved below: when the fuel runs out the queue is
already empty). -/
def kahnLoop (adj : List (List (Nat × Int))) : Nat → KahnState → KahnState
  | 0, s => s
  | fuel + 1, s =>
    match s.queue with
    | [] => s
    | v :: rest => kahnLoop adj fuel (kahnVisit (adj.getD v []) ⟨s.indeg, rest, s.out ++ [v]⟩)

/-- `graph.TopSort`: `some order` when every vertex was output, `none`
otherwise (`ok = false`). -/
def RawGraph.topSort (g : RawGraph) : Option (List Nat) :=
  let n := g.adj.length
  let indeg0 := g.indegInit
  let final := kahnLoop g.adj n ⟨indeg0, (List.range n).filter (fun v => indeg0.getD v 0 = 0), []⟩
  if final.out.length = n then some final.out else none

/-- The number of in-edges of `w` whose source has not yet been output:
the quantity Kahn's in-degree array tracks. -/
def remInDeg (adj : List (List (Nat × Int))) (out : List Nat) (w : Nat) : Nat :=
  ∑ u in Finset.range adj.length, if u ∉ out ∧ edgeB adj u w = true then 1 else 0

/-- The loop invariant of Kahn's algorithm: the output-plus-queue list is
duplicate-free and in range, the in-degree array counts exactly the
in-edges from not-yet-output vertices, queued vertices have in-degree
zero, unfinished vertices outside the queue have non-zero in-degree, and
every output vertex appears after all sources of its in-edges. -/
structure KahnInv (adj : List (List (Nat × Int))) (s : KahnState) : Prop where
  indegLen : s.indeg.length = adj.length
  nodup : (s.out ++ s.queue).Nodup
  bounded : ∀ v ∈ s.out ++ s.queue, v < adj.length
  indegSpec : ∀ w < adj.length, s.indeg.getD w 0 = (remInDeg adj s.out w : Int)
  queueZero : ∀ w ∈ s.queue, s.indeg.getD w 0 = 0
  stuckNonzero : ∀ w < adj.length, w ∉ s.out → w ∉ s.queue → s.indeg.getD w 0 ≠ 0
  outOrder : ∀ u w, edgeB adj u w = true → w ∈ s.out → u ∈ s.out ∧ [u, w].Sublist s.out

/-! ## Strongly connected components (`graph.StrongComponents`)

Embedded by its specification: the partition of the vertices into classes
of mutual reachability.  The Go library produces the components by
Tarjan's algorithm in a specific order; `Cycles` only filters the
partition, and the single property proved about it (emptiness after
dropping singletons) is independent of component order. -/

/-- Successors of a vertex. -/
def succList (adj : List (List (Nat × Int))) (v : Nat) : List Nat :=
  (adj.getD v []).map Prod.fst

/-- One expansion step of forward reachability. -/
def expandReach (adj : List (List (Nat × Int))) (seen : List Nat) : List Nat :=
  seen.foldl
    (fun acc v =>
      (succList adj v).foldl (fun acc w => if acc.contains w then acc else acc ++ [w]) acc)
    seen

/-- Vertices reachable from `v` in zero or more steps (fixpoint reached
after at most `order` expansions). -/
def RawGraph.reachSet (g : RawGraph) (v : Nat) : List Nat :=
  (expandReach g.adj)^[g.adj.length] [v]

/-- The strongly connected component of `v`: mutual reachability. -/
def RawGraph.sccOf (g : RawGraph) (v : Nat) : List Nat :=
  (List.range g.adj.length).filter
    (fun w => (g.reachSet v).contains w && (g.reachSet w).contains v)

/-- The partition of the vertices into strongly connected components. -/
def RawGraph.strongComponents (g : RawGraph) : List (List Nat) :=
  (List.range g.adj.length).foldl
    (fun comps v => if comps.any (fun c => c.contains v) then comps else comps ++ [g.sccOf v])
    []

/-! ## The built graph (`model.Graph`) -/

/-- `model.Graph`: vertex list, ref index, and the raw graph.  The raw
graph pointer is `nil` until `Build` allocates it, which `Option` models. -/
structure Graph where
  deployments : List DeploymentRef
  index : List (DeploymentRef × Nat)
  rawGraph : Option RawGraph
deriving Repr

/-- The zero value of `model.Graph`. -/
def Graph.empty : Graph :=
  ⟨[], [], none⟩

/-- The edge-insertion step for the `dependency` blocks of record `i`
(edges `i → k`) or, when `inverse` is set, for its `dependency_of` blocks
(edges `k → i`). -/
def insertEdges (raw : RawGraph) (i : Nat) (ks : List Nat) (c : Int) (inverse : Bool) :
    RawGraph :=
  ks.foldl (fun raw k => if inverse then raw.addCost k i c else raw.addCost i k c) raw

/-- The per-record body of `Build`'s main loop: resolve every forward and
inverse dependency spec of record `i` and insert the edges. -/
def buildRecordEdges (compile : RegexpCompiler) (deployments : List Deployment)
    (i : Nat) (d : Deployment) (raw : RawGraph) : Except GoErr RawGraph := do
  let raw ← d.dependencies.foldlM
    (fun raw spec => do
      match findDependents compile spec deployments with
      | .error e =>
        .error ("finding dependents of deployment." ++ d.type ++ "." ++ d.name ++ ": " ++ e)
      | .ok ks =>
        pure (insertEdges raw i ks (if spec.waitForHealthy then 1 else 0) false))
    raw
  d.dependencyOf.foldlM
    (fun raw spec => do
      match findDependents compile spec deployments with
      | .error e =>
        .error ("finding inverse depende0nts of deployment " ++ d.type ++ "." ++ d.name ++
          ": " ++ e)
      | .ok ks =>
        pure (insertEdges raw i ks (if spec.waitForHealthy then 1 else 0) true))
    raw

/-- `(*Graph).Build` in `model/graph.go`.  A second call fails; an empty
record list returns success immediately, leaving `rawGraph` unallocated
(`nil`). -/
def Graph.Build (compile : RegexpCompiler) (g : Graph) (deployments : List Deployment) :
    Except GoErr Graph :=
  if g.deployments.length ≠ 0 then
    .error "graph has already been built"
  else if deployments.length = 0 then
    .ok g
  else do
    let refs := deployments.map Deployment.Ref
    let raw ← deployments.enum.foldlM
      (fun raw (p : Nat × Deployment) => buildRecordEdges compile deployments p.1 p.2 raw)
      (RawGraph.new deployments.length)
    .ok ⟨refs, refs.enum.map (fun (p : Nat × DeploymentRef) => (p.2, p.1)), some raw⟩

/-- Result of a Go call that can return a value, return an error, or
panic (nil-pointer dereference). -/
inductive GoResult (α : Type) where
  | ok : α → GoResult α
  | err : GoErr → GoResult α
  | panicked : String → GoResult α
deriving Repr, DecidableEq

/-- `(*Graph).Cycles` in `model/graph.go`: strongly connected components
of size ≠ 1, mapped to refs.  Called on an unbuilt graph it dereferences
the nil `rawGraph` (inside `graph.StrongComponents`). -/
def Graph.Cycles (g : Graph) : GoResult (List (List DeploymentRef)) :=
  match g.rawGraph with
  | none => .panicked "runtime error: invalid memory address or nil pointer dereference"
  | some raw =>
    .ok ((raw.strongComponents.filter (fun c => c.length ≠ 1)).map
      (fun c => c.map (fun j => g.deployments.getD j default)))

/-- `(*Graph).DeployOrder` in `model/graph.go`: the reverse of the
topological sort, mapped to refs (`deployments[i] =
g.deployments[topSort[len-1-i]]`).  Called on an unbuilt graph it
dereferences the nil `rawGraph` (inside `graph.TopSort`). -/
def Graph.DeployOrder (g : Graph) : GoResult (List DeploymentRef) :=
  match g.rawGraph with
  | none => .panicked "runtime error: invalid memory address or nil pointer dereference"
  | some raw =>
    match raw.topSort with
    | none => .err "dependency cycles exist"
    | some ts => .ok (ts.reverse.map (fun j => g.deployments.getD j default))

/-! ## The sequential prefix of the executor (`deploy/graph.go`)

`GraphDeployer.Deploy` spawns the worker pool, then sequentially calls
`DeployOrder`, readies one `Deployment` per ref, and pushes the work.
Only after the first push can any worker interact with shared state, so
the control flow up to that point — and the complete run when there is no
work at all — is deterministic and is modelled here.  A run that reaches
the concurrent phase with a non-empty work list is represented by
`workerPhase` rather than modelled further. -/

/-- Outcome of `GraphDeployer.Deploy` as far as it is sequential. -/
inductive DeployRunOutcome where
  | done : DeployRunOutcome
  | err : GoErr → DeployRunOutcome
  | panicked : String → DeployRunOutcome
  | workerPhase : List DeploymentRef → DeployRunOutcome
deriving Repr, DecidableEq

/-- The sequential prefix of `(*GraphDeployer).Deploy` in
`deploy/graph.go`: resolve the deploy order (wrapping its error as
`resolving deployment order: %w`, propagating its panic), then either run
to completion with no work (returns `nil`: no worker ever receives a
deployment, the error channel stays empty) or enter the worker phase. -/
def graphDeployerDeploy (g : Graph) : DeployRunOutcome :=
  match g.DeployOrder with
  | .panicked m => .panicked m
  | .err e => .err ("resolving deployment order: " ++ e)
  | .ok order => if order.isEmpty then .done else .workerPhase order

/-! ## The per-deployment state machine (`deploy/deploy.go`)

A `deploy.Deployment` holds an atomic status word, two one-shot channels
(`deployChan`, `healthyChan`, closed at most once) and two mutex-guarded
error slots.  The embedding carries the closed flags and the error slots
explicitly; the framework adapter is a pair of per-ref result functions
(`nil` = success).  `WaitUntilDeployed` / `WaitUntilHealthy` block until
the respective channel is closed; blocking is modelled by `none`. -/

/-- `deploy.Status`. -/
inductive DStatus where
  | notReady
  | ready
  | canceled
  | deploying
  | waitingUntilHealthy
  | healthy
  | deployErr
  | healthErr
  | inPanic
deriving DecidableEq, Repr

/-- The observable state of one `deploy.Deployment`. -/
structure DeploymentState where
  status : DStatus
  deployClosed : Bool
  deployError : Option GoErr
  healthyClosed : Bool
  healthyError : Option GoErr
deriving DecidableEq, Repr

/-- The zero value of `deploy.Deployment` (before `ready`). -/
def DeploymentState.initial : DeploymentState :=
  ⟨.notReady, false, none, false, none⟩

/-- A framework adapter (`deploy.Deployer`): per-ref results of `Deploy`
and `WaitUntilHealthy`, `none` meaning a `nil` error. -/
structure DeployerModel where
  deployResult : DeploymentRef → Option GoErr
  waitUntilHealthyResult : DeploymentRef → Option GoErr

/-- `(*Deployment).ready`: `NotReady → Ready` (the channels are allocated
open; a nil deployer is rejected before this in Go, which the model omits
since the adapter cannot be nil here). -/
def DeploymentState.readyOp (s : DeploymentState) : Except GoErr DeploymentState :=
  if s.status = .notReady then .ok { s with status := .ready }
  else .error "deployment is already readied"

/-- `(*Deployment).cancel(err)`: `Ready → Canceled`; stores `err` in the
deploy-phase error slot and closes both channels.  It takes no adapter and
therefore performs no framework call.  Note it does not touch the
health-phase error slot. -/
def DeploymentState.cancelOp (s : DeploymentState) (e : GoErr) :
    Except GoErr DeploymentState :=
  if s.status = .ready then
    .ok { s with
      status := .canceled
      deployError := some e
      deployClosed := true
      healthyClosed := true }
  else .error "deployment is not ready or already started"

/-- `(*Deployment)._deployPhase`: call the adapter's `Deploy`, store the
wrapped error on failure, and close `deployChan` (deferred) in every
case.  `healthyChan` is not touched. -/
def DeploymentState.deployPhase (dep : DeployerModel) (ref : DeploymentRef)
    (s : DeploymentState) : DeploymentState × Option GoErr :=
  match dep.deployResult ref with
  | some e =>
    let e' := "failed to deploy to framework: " ++ e
    ({ s with deployClosed := true, deployError := some e' }, some e')
  | none => ({ s with deployClosed := true }, none)

/-- `(*Deployment)._healthPhase`: call the adapter's `WaitUntilHealthy`,
store the wrapped error on failure, and close `healthyChan` (deferred) in
every case. -/
def DeploymentState.healthPhase (dep : DeployerModel) (ref : DeploymentRef)
    (s : DeploymentState) : DeploymentState × Option GoErr :=
  match dep.waitUntilHealthyResult ref with
  | some e =>
    let e' := "failed to wait until framework considered deployment healthy: " ++ e
    ({ s with healthyClosed := true, healthyError := some e' }, some e')
  | none => ({ s with healthyClosed := true }, none)

/-- `(*Deployment).deploy`: `Ready → Deploying`, run the deploy phase,
and on success `WaitingUntilHealthy` and the health phase.  On a deploy
phase error the status becomes `DeployError` and the health phase is never
entered.  (The adapter model cannot panic, so the `StatusPanic` branch is
unreachable here.) -/
def DeploymentState.deployOp (dep : DeployerModel) (ref : DeploymentRef)
    (s : DeploymentState) : DeploymentState × Option GoErr :=
  if s.status ≠ .ready then (s, some "deployment is not ready or already started")
  else
    let s1 := { s with status := DStatus.deploying }
    match s1.deployPhase dep ref with
    | (s2, some e) => ({ s2 with status := .deployErr }, some e)
    | (s2, none) =>
      let s3 := { s2 with status := DStatus.waitingUntilHealthy }
      match s3.healthPhase dep ref with
      | (s4, some e) => ({ s4 with status := .healthErr }, some e)
      | (s4, none) => ({ s4 with status := .healthy }, none)

/-- `(*Deployment).WaitUntilDeployed`: blocks (`none`) until `deployChan`
is closed, then returns the deploy-phase error slot. -/
def DeploymentState.waitUntilDeployed (s : DeploymentState) : Option (Option GoErr) :=
  if s.deployClosed then some s.deployError else none

/-- `(*Deployment).WaitUntilHealthy`: blocks (`none`) until `healthyChan`
is closed, then returns the health-phase error slot. -/
def DeploymentState.waitUntilHealthy (s : DeploymentState) : Option (Option GoErr) :=
  if s.healthyClosed then some s.healthyError else none

/-! ## Concrete configurations used by the claim-level theorems -/

/-- A `marathon_app` record with the given name and forward dependencies. -/
def appRecord (name : String) (deps : List DependencySpec) : Deployment :=
  ⟨"marathon_app", name, "", "", [], deps, []⟩

/-- A `chronos_job` record with the given name and no dependencies. -/
def jobRecord (name : String) : Deployment :=
  ⟨"chronos_job", name, "", "", [], [], []⟩

/-- A named-form dependency spec (no filter blocks). -/
def namedSpec (type name : String) (wfh : Bool) : DependencySpec :=
  ⟨type, name, wfh, []⟩

/-- Record `a` declaring the same dependency `b` twice, first with
`wait_for_healthy = true`, then without. -/
def dupDepRecords : List Deployment :=
  [appRecord "a" [namedSpec "marathon_app" "b" true, namedSpec "marathon_app" "b" false],
   appRecord "b" []]

/-- A single record depending on itself by name. -/
def selfDepRecords : List Deployment :=
  [appRecord "a" [namedSpec "marathon_app" "a" false]]

/-- A built two-vertex graph with the single edge `0 → 1`
(record `a` depends on record `b`, wait-for-healthy).  It is the graph
`Build` produces for `[appRecord "a" [namedSpec "marathon_app" "b" true],
appRecord "b" []]`. -/
def chainGraph : Graph :=
  ⟨[⟨"marathon_app", "a"⟩, ⟨"marathon_app", "b"⟩],
   [(⟨"marathon_app", "a"⟩, 0), (⟨"marathon_app", "b"⟩, 1)],
   some ⟨[[(1, 1)], []]⟩⟩

/-- A built one-vertex graph whose only edge is the self-loop `0 → 0`. -/
def loopGraph : Graph :=
  ⟨[⟨"marathon_app", "a"⟩], [(⟨"marathon_app", "a"⟩, 0)], some ⟨[[(0, 0)]]⟩⟩

/-- An adapter whose deploy phase always fails. -/
def failingDeployer : DeployerModel :=
  ⟨fun _ => some "boom", fun _ => none⟩

/-- A deployment state that has been readied (`ready` was called on the
zero value). -/
def readiedState : DeploymentState :=
  { DeploymentState.initial with status := .ready }

/-! ## Helper lemmas -/

/-- `List.getD` after `List.set` at the same (in-range) index. -/
theorem getD_set_self {α : Type} (l : List α) (i : Nat) (x d : α) (h : i < l.length) :
    (l.set i x).getD i d = x := by
  induction l generalizing i with
  | nil => simp at h
  | cons a t ih =>
    cases i with
    | zero => rfl
    | succ j => simpa [List.set, List.getD] using ih j (by simpa using h)

/-- `List.getD` after `List.set` at a different index. -/
theorem getD_set_ne {α : Type} (l : List α) (i j : Nat) (x d : α) (h : i ≠ j) :
    (l.set i x).getD j d = l.getD j d := by
  induction l generalizing i j with
  | nil => rfl
  | cons a t ih =>
    cases i with
    | zero => cases j with
      | zero => exact absurd rfl h
      | succ k => rfl
    | succ i' => cases j with
      | zero => rfl
      | succ k => simpa [List.set, List.getD] using ih i' k (by omega)

/-- Looking up the just-upserted key. -/
theorem lookup_upsertEdge (l : List (Nat × Int)) (w : Nat) (c : Int) :
    (upsertEdge l w c).lookup w = some c := by
  induction l with
  | nil => simp [upsertEdge, List.lookup]
  | cons p t ih =>
    obtain ⟨a, b⟩ := p
    by_cases h : a = w
    · subst h
      simp [upsertEdge, List.lookup]
    · have hne : (w == a) = false := beq_eq_false_iff_ne.mpr (Ne.symm h)
      simp only [upsertEdge]
      rw [if_neg h]
      simp only [List.lookup, hne]
      exact ih

/-! ## C4 — glob conversion -/

/-- C4: the claim describes the intended glob grammar (`*` → `.*`, `?` → `.`,
`\*`/`\?`/`\\` literal, unescaped `[`/`]` rejected, other runes regex-quoted,
implicit `^…$` anchors).  The code matches it on escape-free patterns and on
a pattern that ends right after an escape, but the `?`, `[`, `]` branches of
the rune loop fail to clear the `backslash` flag, so any ordinary rune that
follows `\?` (or `\[`, `\]`) is rejected as an unknown escape sequence:
`\?a` must convert to `^\?a$` per the claim, yet the code returns an error. -/
theorem c4_globToRegexp_escape_state_bug :
    globToRegexp "a*b.c" = .ok "^a.*b\\.c$" ∧
    globToRegexp "\\?" = .ok "^\\?$" ∧
    globToRegexp "\\\\a" = .ok "^\\\\a$" ∧
    globToRegexp "\\?a" = .error "unknown escape sequence \"\\a\"" :=
  ⟨rfl, rfl, rfl, rfl⟩

/-! ## C3 — edge cost on repeated insertion -/

/-- C3 counterexample: record `a` declares dependency `b` twice, first with
`wait_for_healthy = true` (cost 1), then without (cost 0).  The claim
requires the resulting edge cost to be the MAX (1), or alternatively 1
unconditionally; the built graph stores 0 — `AddCost` overwrote the cost. -/
theorem c3_counterexample_last_insert_wins :
    Graph.Build goRegexpCompile Graph.empty dupDepRecords =
      .ok ⟨[⟨"marathon_app", "a"⟩, ⟨"marathon_app", "b"⟩],
           [(⟨"marathon_app", "a"⟩, 0), (⟨"marathon_app", "b"⟩, 1)],
           some ⟨[[(1, 0)], []]⟩⟩ :=
  rfl

/-- C3 amended: when the same vertex pair is inserted more than once the
stored cost is the LAST contributing spec's cost — each `AddCost`
overwrites the existing edge cost, so a cost-1 (wait-for-healthy) edge is
reduced to cost 0 by a later cost-0 insertion. -/
theorem c3_amended_addCost_overwrites (g : RawGraph) (v w : Nat) (c₁ c₂ : Int)
    (hv : v < g.adj.length) :
    (((g.addCost v w c₁).addCost v w c₂).adj.getD v []).lookup w = some c₂ := by
  unfold RawGraph.addCost
  simp only
  rw [getD_set_self _ _ _ _ (by simpa using hv), lookup_upsertEdge]

/-- Witness for `c3_amended_addCost_overwrites` at a concrete graph. -/
theorem c3_amended_addCost_overwrites_witness :
    0 < (RawGraph.new 2).adj.length ∧
      ((((RawGraph.new 2).addCost 0 1 1).addCost 0 1 0).adj.getD 0 []).lookup 1 = some 0 :=
  ⟨by decide, c3_amended_addCost_overwrites (RawGraph.new 2) 0 1 1 0 (by decide)⟩

/-! ## C5 — empty deployment list -/

/-- C5: on an empty record list `Build` succeeds (first half of the claim),
but it returns before allocating the inner raw graph, so the executor's
`Deploy` — which immediately calls `DeployOrder`, which hands the nil
`*graph.Mutable` to `graph.TopSort` — dereferences a nil pointer and
panics instead of returning nil as the claim states. -/
theorem c5_empty_build_succeeds_but_deploy_panics :
    Graph.Build goRegexpCompile Graph.empty [] = .ok Graph.empty ∧
    Graph.empty.rawGraph = none ∧
    graphDeployerDeploy Graph.empty =
      .panicked "runtime error: invalid memory address or nil pointer dereference" :=
  ⟨rfl, rfl, rfl⟩

/-! ## C10 — self-loops are invisible to Cycles but fatal to DeployOrder -/

/-- C10: a record whose dependency spec resolves to the record itself makes
`Build` insert the self-loop `0 → 0`; the strongly-connected-component
partition consists of the singleton `[0]` only, which `Cycles` skips
(size ≠ 1 filter), so `Cycles` reports nothing while `DeployOrder` fails —
an empty `Cycles()` result does not guarantee that `DeployOrder()`
succeeds. -/
theorem c10_selfloop_invisible_to_cycles_fails_deployorder :
    Graph.Build goRegexpCompile Graph.empty selfDepRecords = .ok loopGraph ∧
    EdgeRel ⟨[[(0, 0)]]⟩ 0 0 ∧
    (RawGraph.strongComponents ⟨[[(0, 0)]]⟩) = [[0]] ∧
    loopGraph.Cycles = .ok [] ∧
    loopGraph.DeployOrder = .err "dependency cycles exist" :=
  ⟨rfl, rfl, rfl, rfl, rfl⟩

/-! ## C1 — deploy-phase failure and the healthy signal -/

/-- C1 counterexample: from a readied deployment whose adapter `Deploy`
fails, `deploy` releases `DeployDone` with the wrapped error, but
`HealthyDone` is NOT released (`_deployPhase` only closes `deployChan`,
and the health phase is never entered), so a subsequent `WaitUntilHealthy`
blocks (`none`) instead of returning the error as the claim states. -/
theorem c1_counterexample_healthy_not_released :
    (DeploymentState.deployOp failingDeployer ⟨"marathon_app", "a"⟩ readiedState).1.waitUntilDeployed
      = some (some "failed to deploy to framework: boom") ∧
    (DeploymentState.deployOp failingDeployer ⟨"marathon_app", "a"⟩ readiedState).1.waitUntilHealthy
      = none :=
  ⟨rfl, rfl⟩

/-- C1 amended: for every deployment whose deploy phase fails, `deploy`
returns the wrapped error, moves the state to `DeployError`, releases only
`DeployDone` carrying that error, and leaves `HealthyDone` unreleased, so
a subsequent `WaitUntilHealthy` blocks; dependents must wait on
`DeployDone` and check its error first. -/
theorem c1_amended_deploy_failure_releases_only_deploy_signal
    (dep : DeployerModel) (ref : DeploymentRef) (s : DeploymentState) (e : GoErr)
    (hs : s.status = .ready) (hh : s.healthyClosed = false)
    (hd : dep.deployResult ref = some e) :
    (DeploymentState.deployOp dep ref s).2 = some ("failed to deploy to framework: " ++ e) ∧
    (DeploymentState.deployOp dep ref s).1.status = .deployErr ∧
    (DeploymentState.deployOp dep ref s).1.waitUntilDeployed
      = some (some ("failed to deploy to framework: " ++ e)) ∧
    (DeploymentState.deployOp dep ref s).1.waitUntilHealthy = none := by
  simp [DeploymentState.deployOp, DeploymentState.deployPhase, hs, hd,
    DeploymentState.waitUntilDeployed, DeploymentState.waitUntilHealthy, hh]

/-- Witness for `c1_amended_deploy_failure_releases_only_deploy_signal`. -/
theorem c1_amended_witness :
    readiedState.status = .ready ∧ readiedState.healthyClosed = false ∧
    failingDeployer.deployResult ⟨"marathon_app", "a"⟩ = some "boom" ∧
    ((DeploymentState.deployOp failingDeployer ⟨"marathon_app", "a"⟩ readiedState).2
        = some ("failed to deploy to framework: " ++ "boom") ∧
      (DeploymentState.deployOp failingDeployer ⟨"marathon_app", "a"⟩ readiedState).1.status
        = .deployErr ∧
      (DeploymentState.deployOp failingDeployer ⟨"marathon_app", "a"⟩ readiedState).1.waitUntilDeployed
        = some (some ("failed to deploy to framework: " ++ "boom")) ∧
      (DeploymentState.deployOp failingDeployer ⟨"marathon_app", "a"⟩ readiedState).1.waitUntilHealthy
        = none) :=
  ⟨rfl, rfl, rfl,
    c1_amended_deploy_failure_releases_only_deploy_signal failingDeployer
      ⟨"marathon_app", "a"⟩ readiedState "boom" rfl rfl rfl⟩

/-! ## C8 — cancel and the two signals -/

/-- C8 counterexample: `cancel("boom")` on a readied deployment stores the
error only in the deploy-phase slot; `healthyChan` is closed with the
health-phase error slot still nil, so `WaitUntilHealthy` returns `nil`
(`some none`), not the propagated error as the claim states. -/
theorem c8_counterexample_healthy_error_is_nil :
    DeploymentState.cancelOp readiedState "boom" =
      .ok ⟨.canceled, true, some "boom", true, none⟩ ∧
    (DeploymentState.waitUntilHealthy ⟨.canceled, true, some "boom", true, none⟩) = some none :=
  ⟨rfl, rfl⟩

/-- C8 amended: for every deployment in state `Ready`, `cancel(err)`
transitions it to `Canceled` and releases both one-shot signals without
any framework adapter call (`cancel` does not even receive the adapter);
`WaitUntilDeployed` then returns `err`, but `WaitUntilHealthy` returns
`nil` — the propagated error is stored only in the deploy-phase slot. -/
theorem c8_amended_cancel_releases_both_but_healthy_error_nil
    (s : DeploymentState) (e : GoErr)
    (hs : s.status = .ready) (hh : s.healthyError = none) :
    ∃ s', DeploymentState.cancelOp s e = .ok s' ∧
      s'.status = .canceled ∧
      s'.waitUntilDeployed = some (some e) ∧
      s'.waitUntilHealthy = some none := by
  refine ⟨{ s with
      status := .canceled
      deployError := some e
      deployClosed := true
      healthyClosed := true }, ?_, rfl, rfl, ?_⟩
  · simp [DeploymentState.cancelOp, hs]
  · simp [DeploymentState.waitUntilHealthy, hh]

/-- Witness for `c8_amended_cancel_releases_both_but_healthy_error_nil`. -/
theorem c8_amended_witness :
    readiedState.status = .ready ∧ readiedState.healthyError = none ∧
    (∃ s', DeploymentState.cancelOp readiedState "boom" = .ok s' ∧
      s'.status = .canceled ∧
      s'.waitUntilDeployed = some (some "boom") ∧
      s'.waitUntilHealthy = some none) :=
  ⟨rfl, rfl,
    c8_amended_cancel_releases_both_but_healthy_error_nil readiedState "boom" rfl rfl⟩

/-! ## Except-monad reduction helpers -/

/-- `bind` on a successful `Except` computes. -/
theorem exceptBind_ok {ε α β : Type} (a : α) (k : α → Except ε β) :
    ((Except.ok a : Except ε α) >>= k) = k a := rfl

/-- `bind` on a failed `Except` propagates the error. -/
theorem exceptBind_error {ε α β : Type} (e : ε) (k : α → Except ε β) :
    ((Except.error e : Except ε α) >>= k) = Except.error e := rfl

/-! ## Filter lemmas -/

/-- Flipping `negate` does not change the `values` computation. -/
theorem filterValues_flipNegate (f : Filter) : filterValues (flipNegate f) = filterValues f := rfl

/-- Flipping `negate` does not change the `compareTo` computation. -/
theorem filterCompareTo_flipNegate (f : Filter) (d : Deployment) :
    filterCompareTo (flipNegate f) d = filterCompareTo f d := rfl

/-- Flipping `negate` does not change a single value's match result. -/
theorem valMatches_flipNegate (compile : RegexpCompiler) (f : Filter) (ct : List String)
    (v : String) : valMatches compile (flipNegate f) ct v = valMatches compile f ct v := rfl

/-- Flipping `negate` does not change the value loop's result. -/
theorem anyValMatches_flipNegate (compile : RegexpCompiler) (f : Filter) (ct : List String)
    (vs : List String) :
    anyValMatches compile (flipNegate f) ct vs = anyValMatches compile f ct vs := by
  induction vs with
  | nil => rfl
  | cons v rest ih =>
    simp only [anyValMatches, valMatches_flipNegate, ih]

/-- Evaluating the synthesized name filter is literal name equality. -/
theorem filterMatches_nameFilter (compile : RegexpCompiler) (nm : String) (hnm : nm ≠ "")
    (d : Deployment) :
    filterMatches compile (nameFilter nm) d = .ok (nm == d.name) := by
  simp only [filterMatches, nameFilter, filterValues, filterCompareTo, List.isEmpty_nil]
  rw [if_neg hnm]
  cases h : (nm == d.name)
  · have hnd : ¬ nm = d.name := by simpa using h
    simp [anyValMatches, valMatches, hnd]
    rfl
  · have hnd : nm = d.name := by simpa using h
    simp [anyValMatches, valMatches, hnd]
    rfl

/-- The filter conjunction for the singleton synthesized name filter. -/
theorem allFiltersMatch_nameFilter (compile : RegexpCompiler) (nm : String) (hnm : nm ≠ "")
    (d : Deployment) :
    allFiltersMatch compile d [nameFilter nm] = .ok (nm == d.name) := by
  simp only [allFiltersMatch, filterMatches_nameFilter compile nm hnm d, exceptBind_ok]
  cases h : (nm == d.name) <;> simp [h] <;> rfl

/-- The type switch for the three recognized dependency type strings. -/
theorem checkDependencyType_known (ty : String) (d : Deployment)
    (hty : ty = "*" ∨ ty = "marathon_app" ∨ ty = "chronos_job") :
    checkDependencyType ty d = .ok (ty == "*" || ty == d.type) := by
  rcases hty with h | h | h <;> subst h
  · rfl
  · simp only [checkDependencyType]
    rw [if_neg (by decide), if_pos (Or.inl trivial)]
    rw [show ("marathon_app" == "*") = false from by decide]
    simp only [Bool.false_or]
    rfl
  · simp only [checkDependencyType]
    rw [if_neg (by decide), if_pos (Or.inr trivial)]
    rw [show ("chronos_job" == "*") = false from by decide]
    simp only [Bool.false_or]
    rfl

/-- Membership characterization of the record loop under the synthesized
name filter: every record of matching type and name is collected, with no
cardinality constraint. -/
theorem findDependentsLoop_nameFilter_mem (compile : RegexpCompiler) (ty nm : String)
    (hnm : nm ≠ "") (hty : ty = "*" ∨ ty = "marathon_app" ∨ ty = "chronos_job")
    (pairs : List (Nat × Deployment)) (l : List Nat)
    (hok : findDependentsLoop compile ty [nameFilter nm] pairs = .ok l) (i : Nat) :
    i ∈ l ↔ ∃ d, (i, d) ∈ pairs ∧ (ty = "*" ∨ ty = d.type) ∧ d.name = nm := by
  induction pairs generalizing l with
  | nil =>
    simp only [findDependentsLoop] at hok
    cases hok
    simp
  | cons p rest ih =>
    obtain ⟨j, d⟩ := p
    rw [findDependentsLoop, checkDependencyType_known ty d hty] at hok
    simp only [exceptBind_ok] at hok
    cases hcons : (ty == "*" || ty == d.type) with
    | false =>
      rw [hcons] at hok
      simp only [Bool.false_eq_true, if_false] at hok
      rw [ih l hok]
      have hne : ¬(ty = "*" ∨ ty = d.type) := by
        rcases Bool.or_eq_false_iff.mp hcons with ⟨h1, h2⟩
        rintro (h | h)
        · exact absurd h (by simpa using h1)
        · exact absurd h (by simpa using h2)
      constructor
      · rintro ⟨d', hmem, hP⟩
        exact ⟨d', List.mem_cons_of_mem _ hmem, hP⟩
      · rintro ⟨d', hmem, hP⟩
        rcases List.mem_cons.mp hmem with heq | hmem'
        · injection heq with h1 h2
          subst h2
          exact absurd hP.1 hne
        · exact ⟨d', hmem', hP⟩
    | true =>
      rw [hcons] at hok
      simp only [if_true] at hok
      rw [allFiltersMatch_nameFilter compile nm hnm d] at hok
      simp only [exceptBind_ok] at hok
      have htyd : ty = "*" ∨ ty = d.type := by
        rcases Bool.or_eq_true_iff.mp hcons with h | h
        · exact Or.inl (by simpa using h)
        · exact Or.inr (by simpa using h)
      cases hmatch : (nm == d.name) with
      | false =>
        rw [hmatch] at hok
        simp only [Bool.false_eq_true, if_false] at hok
        rw [ih l hok]
        have hnmne : d.name ≠ nm := fun h => by simp [h] at hmatch
        constructor
        · rintro ⟨d', hmem, hP⟩
          exact ⟨d', List.mem_cons_of_mem _ hmem, hP⟩
        · rintro ⟨d', hmem, hP⟩
          rcases List.mem_cons.mp hmem with heq | hmem'
          · injection heq with h1 h2
            subst h2
            exact absurd hP.2 hnmne
          · exact ⟨d', hmem', hP⟩
      | true =>
        rw [hmatch] at hok
        simp only [if_true] at hok
        cases hrec : findDependentsLoop compile ty [nameFilter nm] rest with
        | error e => rw [hrec] at hok; exact absurd hok (by simp [exceptBind_error])
        | ok tail =>
          rw [hrec] at hok
          simp only [exceptBind_ok] at hok
          cases hok
          have hdn : d.name = nm := by
            have := (beq_iff_eq ..).mp hmatch
            exact this.symm
          constructor
          · intro hi
            rcases List.mem_cons.mp hi with rfl | hi'
            · exact ⟨d, List.mem_cons_self .., htyd, hdn⟩
            · obtain ⟨d', hmem, hP⟩ := (ih tail hrec).mp hi'
              exact ⟨d', List.mem_cons_of_mem _ hmem, hP⟩
          · rintro ⟨d', hmem, hP⟩
            rcases List.mem_cons.mp hmem with heq | hmem'
            · injection heq with h1 h2
              subst h1
              exact List.mem_cons_self ..
            · exact List.mem_cons_of_mem _ ((ih tail hrec).mpr ⟨d', hmem', hP⟩)

/-! ## C2 — named dependencies and match cardinality -/

/-- C2 counterexample: for a named dependency spec, resolution does NOT
require exactly one match — with no matching record it succeeds with the
empty index list (no `ErrNameNotFound`), and with two matching records it
succeeds with both indices (no `ErrNameAmbiguous`). -/
theorem c2_counterexample_no_uniqueness_check :
    findDependents goRegexpCompile (namedSpec "marathon_app" "x" false) [] = .ok [] ∧
    findDependents goRegexpCompile (namedSpec "marathon_app" "x" false)
      [appRecord "x" [], appRecord "x" []] = .ok [0, 1] :=
  ⟨rfl, rfl⟩

/-- C2 amended: for every dependency spec with a non-empty name (no filter
blocks, recognized type), resolution synthesizes the name filter and
returns exactly the indices of ALL records with matching type and name —
zero matches yield an empty list and several matches yield all of them,
with no error in either case. -/
theorem c2_amended_name_resolution_collects_all_matches
    (compile : RegexpCompiler) (spec : DependencySpec) (ds : List Deployment)
    (l : List Nat) (i : Nat)
    (hname : spec.name ≠ "") (hf : spec.filters = [])
    (hty : spec.type = "*" ∨ spec.type = "marathon_app" ∨ spec.type = "chronos_job")
    (hok : findDependents compile spec ds = .ok l) :
    i ∈ l ↔ ∃ d, ds.get? i = some d ∧ (spec.type = "*" ∨ spec.type = d.type) ∧
      d.name = spec.name := by
  unfold findDependents at hok
  rw [if_pos hname, hf] at hok
  simp only [List.isEmpty_nil, Bool.not_true, Bool.false_eq_true, if_false, exceptBind_ok] at hok
  rw [findDependentsLoop_nameFilter_mem compile spec.type spec.name hname hty ds.enum l hok i]
  constructor
  · rintro ⟨d, hmem, hP⟩
    exact ⟨d, by simpa using (List.mk_mem_enum_iff_getElem?.mp hmem), hP⟩
  · rintro ⟨d, hget, hP⟩
    exact ⟨d, List.mk_mem_enum_iff_getElem?.mpr (by simpa using hget), hP⟩

/-- Witness for `c2_amended_name_resolution_collects_all_matches`: the
second of two same-named records is a resolved dependent. -/
theorem c2_amended_witness :
    ("x" : String) ≠ "" ∧
    ((1 : Nat) ∈ ([0, 1] : List Nat) ↔
      ∃ d, [appRecord "x" [], appRecord "x" []].get? 1 = some d ∧
        ("marathon_app" = "*" ∨ ("marathon_app" : String) = d.type) ∧ d.name = "x") :=
  ⟨by decide,
    c2_amended_name_resolution_collects_all_matches goRegexpCompile
      (namedSpec "marathon_app" "x" false)
      [appRecord "x" [], appRecord "x" []] [0, 1] 1 (by decide) rfl
      (Or.inr (Or.inl rfl)) rfl⟩

/-! ## C7 — named form versus filters and wildcard -/

/-- C7 counterexample: a named dependency spec whose type is `"*"` is NOT
rejected with `ErrWildcardWithName`; the synthesized name filter is applied
across all deployment types and both same-named records (a `marathon_app`
and a `chronos_job`) resolve. -/
theorem c7_counterexample_wildcard_with_name_not_rejected :
    findDependents goRegexpCompile ⟨"*", "x", false, []⟩ [appRecord "x" [], jobRecord "x"] =
      .ok [0, 1] :=
  rfl

/-- C7 amended: for every dependency spec with a non-empty name, resolution
rejects the spec when filter blocks are also present, and otherwise
synthesizes the single filter `{key=name, value=s.name}` and proceeds with
it — a wildcard type `"*"` is not rejected. -/
theorem c7_amended_name_rejects_filters_but_not_wildcard
    (compile : RegexpCompiler) (spec : DependencySpec) (ds : List Deployment)
    (hname : spec.name ≠ "") :
    (spec.filters ≠ [] →
      findDependents compile spec ds =
        .error "dependency can have name attribute or filter blocks but not both") ∧
    (spec.filters = [] →
      findDependents compile spec ds =
        findDependentsLoop compile spec.type [nameFilter spec.name] ds.enum) := by
  constructor
  · intro hf
    unfold findDependents
    rw [if_pos hname]
    have hne : spec.filters.isEmpty = false := by
      cases h : spec.filters with
      | nil => exact absurd h hf
      | cons a t => rfl
    rw [hne]
    rfl
  · intro hf
    unfold findDependents
    rw [if_pos hname, hf]
    rfl

/-- Witness for `c7_amended_name_rejects_filters_but_not_wildcard`. -/
theorem c7_amended_witness :
    (("x" : String) ≠ "" ∧
      findDependents goRegexpCompile ⟨"marathon_app", "x", false, [nameFilter "y"]⟩ [] =
        .error "dependency can have name attribute or filter blocks but not both") ∧
    (("x" : String) ≠ "" ∧
      findDependents goRegexpCompile (namedSpec "marathon_app" "x" false) [jobRecord "x"] =
        findDependentsLoop goRegexpCompile "marathon_app" [nameFilter "x"] [jobRecord "x"].enum) :=
  ⟨⟨by decide,
    (c7_amended_name_rejects_filters_but_not_wildcard goRegexpCompile
      ⟨"marathon_app", "x", false, [nameFilter "y"]⟩ [] (by decide)).1 (by simp)⟩,
   ⟨by decide,
    (c7_amended_name_rejects_filters_but_not_wildcard goRegexpCompile
      (namedSpec "marathon_app" "x" false) [jobRecord "x"] (by decide)).2 rfl⟩⟩

/-! ## C9 — negation inverts filter matching -/

/-- C9 counterexample: the filter `{key=name, value="[", glob=true}` is
well-formed in the claim's sense (exactly one of value/values set, known
key), yet its evaluation fails identically for both negate orientations
(the glob pattern does not convert), so "exactly one of the two match
results is true" is false for it. -/
theorem c9_counterexample_invalid_pattern_breaks_xor :
    filterMatches goRegexpCompile ⟨"name", "[", [], true, false, false⟩ (appRecord "d" []) =
      .error "invalid glob pattern \"[\": character classes not supported in glob yet" ∧
    filterMatches goRegexpCompile (flipNegate ⟨"name", "[", [], true, false, false⟩)
      (appRecord "d" []) =
      .error "invalid glob pattern \"[\": character classes not supported in glob yet" ∧
    ¬(filterMatches goRegexpCompile ⟨"name", "[", [], true, false, false⟩ (appRecord "d" [])
        = .ok true ∨
      filterMatches goRegexpCompile (flipNegate ⟨"name", "[", [], true, false, false⟩)
        (appRecord "d" []) = .ok true) := by
  refine ⟨rfl, rfl, ?_⟩
  rintro (h | h) <;> exact nomatch h

/-- C9 amended: for every filter and every deployment record, flipping the
`negate` flag maps the result of `filterMatches` through boolean negation:
whenever evaluation succeeds the match result is inverted, and whenever it
fails both orientations fail with the same error.  The XOR property of the
claim therefore holds exactly for filters whose evaluation succeeds.  The
statement is quantified over an arbitrary regexp compiler. -/
theorem c9_amended_flip_negate_maps_not
    (compile : RegexpCompiler) (f : Filter) (d : Deployment) :
    filterMatches compile (flipNegate f) d = (filterMatches compile f d).map (fun b => !b) := by
  unfold filterMatches
  rw [filterValues_flipNegate, filterCompareTo_flipNegate]
  cases hv : filterValues f with
  | error e => rfl
  | ok values =>
    cases hc : filterCompareTo f d with
    | error e => rfl
    | ok ct =>
      simp only [exceptBind_ok, anyValMatches_flipNegate]
      cases hct : ct.isEmpty
      · cases ha : anyValMatches compile f ct values with
        | error e => simp only [exceptBind_error]; rfl
        | ok b => cases b <;> simp only [exceptBind_ok] <;> rfl
      · rfl


-- basic facts about edgeB and remInDeg

/-! ## C6 — correctness of the reverse topological order

The remainder of the file verifies Kahn's algorithm as embedded in
`RawGraph.topSort`: on a well-formed acyclic graph it outputs a
permutation of the vertices in which every edge's source precedes its
target, and it reports failure exactly when the graph has a directed
cycle.  `Graph.DeployOrder` reverses that order, so every vertex appears
after all of its outgoing neighbours (each dependency precedes every
dependent). -/

theorem edgeB_lt_src {adj : List (List (Nat × Int))} {u w : Nat}
    (h : edgeB adj u w = true) : u < adj.length := by
  by_contra hge
  rw [edgeB, List.getD_eq_default] at h
  · simp at h
  · omega

theorem edgeB_iff_mem {adj : List (List (Nat × Int))} {u w : Nat} :
    edgeB adj u w = true ↔ w ∈ (adj.getD u []).map Prod.fst := by
  rw [edgeB]
  exact List.elem_iff

theorem remInDeg_snoc (adj : List (List (Nat × Int))) (out : List Nat) (v w : Nat)
    (hv : v < adj.length) (hvout : v ∉ out) :
    remInDeg adj out w =
      remInDeg adj (out ++ [v]) w + (if edgeB adj v w = true then 1 else 0) := by
  unfold remInDeg
  have hvmem : v ∈ Finset.range adj.length := Finset.mem_range.mpr hv
  rw [← Finset.sum_erase_add _ _ hvmem, ← Finset.sum_erase_add _ _ hvmem]
  have hcongr : ∀ u ∈ (Finset.range adj.length).erase v,
      (if u ∉ out ∧ edgeB adj u w = true then 1 else 0) =
        (if u ∉ out ++ [v] ∧ edgeB adj u w = true then 1 else 0) := by
    intro u hu
    have hne : u ≠ v := Finset.ne_of_mem_erase hu
    by_cases huo : u ∈ out
    · simp [huo]
    · have hnv : u ∉ out ++ [v] := by simp [List.mem_append, huo, hne]
      simp [huo, hnv]
  rw [Finset.sum_congr rfl hcongr]
  have h1 : (if v ∉ out ++ [v] ∧ edgeB adj v w = true then 1 else 0) = 0 := by
    simp
  have h2 : (if v ∉ out ∧ edgeB adj v w = true then (1 : ℕ) else 0) =
      (if edgeB adj v w = true then 1 else 0) := by
    simp [hvout]
  rw [h1, h2]
  omega

theorem remInDeg_eq_zero_iff (adj : List (List (Nat × Int))) (out : List Nat) (w : Nat) :
    remInDeg adj out w = 0 ↔ ∀ u, edgeB adj u w = true → u ∈ out := by
  unfold remInDeg
  rw [Finset.sum_eq_zero_iff]
  constructor
  · intro h u he
    by_contra hu
    have := h u (Finset.mem_range.mpr (edgeB_lt_src he))
    simp [hu, he] at this
  · intro h u _
    by_cases hu : u ∈ out
    · simp [hu]
    · by_cases he : edgeB adj u w = true
      · exact absurd (h u he) hu
      · simp [he]


theorem bumpTargets_length (l : List (Nat × Int)) (indeg : List Int) :
    (bumpTargets l indeg).length = indeg.length := by
  induction l generalizing indeg with
  | nil => rfl
  | cons p rest ih =>
    obtain ⟨t, c⟩ := p
    simpa [bumpTargets] using ih (indeg.set t (indeg.getD t 0 + 1))

theorem bumpTargets_getD (l : List (Nat × Int)) (indeg : List Int) (w : Nat)
    (hw : w < indeg.length) (hl : ∀ p ∈ l, p.1 < indeg.length)
    (hnd : (l.map Prod.fst).Nodup) :
    (bumpTargets l indeg).getD w 0 =
      indeg.getD w 0 + (if w ∈ l.map Prod.fst then 1 else 0) := by
  induction l generalizing indeg with
  | nil => simp [bumpTargets]
  | cons p rest ih =>
    obtain ⟨t, c⟩ := p
    have ht : t < indeg.length := hl (t, c) (List.mem_cons_self ..)
    have hl' : ∀ p ∈ rest, p.1 < (indeg.set t (indeg.getD t 0 + 1)).length := by
      intro p hp
      rw [List.length_set]
      exact hl p (List.mem_cons_of_mem _ hp)
    have hnd' : (rest.map Prod.fst).Nodup := (List.nodup_cons.mp hnd).2
    have hw' : w < (indeg.set t (indeg.getD t 0 + 1)).length := by
      rw [List.length_set]; exact hw
    by_cases hwt : w = t
    · subst hwt
      have hwrest : w ∉ rest.map Prod.fst := by
        have := (List.nodup_cons.mp hnd).1
        simpa using this
      rw [bumpTargets, ih _ hw' hl' hnd']
      rw [getD_set_self _ _ _ _ ht]
      simp [hwrest]
    · rw [bumpTargets, ih _ hw' hl' hnd']
      rw [getD_set_ne _ _ _ _ _ (fun h => hwt h.symm)]
      have : (w ∈ t :: rest.map Prod.fst) = (w ∈ rest.map Prod.fst) := by
        simp [List.mem_cons, hwt]
      simp only [List.map_cons, List.mem_cons, hwt, false_or]

theorem indegAux_getD (lists : List (List (Nat × Int))) (indeg : List Int) (w : Nat)
    (hw : w < indeg.length)
    (hl : ∀ l ∈ lists, (∀ p ∈ l, p.1 < indeg.length) ∧ (l.map Prod.fst).Nodup) :
    (indegAux lists indeg).getD w 0 =
      indeg.getD w 0 + (lists.countP (fun l => (l.map Prod.fst).contains w) : Int) := by
  induction lists generalizing indeg with
  | nil => simp [indegAux]
  | cons l rest ih =>
    have hcur := hl l (List.mem_cons_self ..)
    have hw' : w < (bumpTargets l indeg).length := by rw [bumpTargets_length]; exact hw
    have hl' : ∀ l' ∈ rest, (∀ p ∈ l', p.1 < (bumpTargets l indeg).length) ∧
        (l'.map Prod.fst).Nodup := by
      intro l' hl'
      rw [bumpTargets_length]
      exact hl l' (List.mem_cons_of_mem _ hl')
    rw [indegAux, ih _ hw' hl', bumpTargets_getD l indeg w hw hcur.1 hcur.2]
    rw [List.countP_cons]
    have : ((l.map Prod.fst).contains w = true) ↔ w ∈ l.map Prod.fst := List.elem_iff
    by_cases hm : w ∈ l.map Prod.fst
    · simp [hm, this.mpr hm]
      ring
    · have : ¬ ((l.map Prod.fst).contains w = true) := fun h => hm (List.elem_iff.mp h)
      simp only [this, if_false, hm]
      simp

theorem countP_eq_sum_range {α : Type} (l : List α) (p : α → Bool) (d : α) :
    l.countP p = ∑ i in Finset.range l.length, if p (l.getD i d) = true then 1 else 0 := by
  induction l with
  | nil => simp
  | cons a t ih =>
    rw [List.countP_cons, List.length_cons, Finset.sum_range_succ']
    simp only [List.getD_cons_succ, List.getD_cons_zero]
    rw [← ih]

theorem getD_replicate_self {α : Type} (n i : Nat) (x d : α) (h : i < n) :
    (List.replicate n x).getD i d = x := by
  rw [List.getD_eq_getElem?_getD]
  simp [List.getElem?_replicate, h]

theorem indegInit_spec (g : RawGraph) (hwf : g.WF) (w : Nat) (hw : w < g.adj.length) :
    g.indegInit.getD w 0 = (remInDeg g.adj [] w : Int) := by
  unfold RawGraph.indegInit
  rw [indegAux_getD _ _ w (by simpa using hw)
    (by intro l hl; have := hwf l hl; simpa using this)]
  rw [getD_replicate_self _ _ _ _ hw]
  simp only [zero_add]
  norm_cast
  rw [countP_eq_sum_range _ _ []]
  unfold remInDeg
  apply Finset.sum_congr rfl
  intro u _
  simp only [edgeB, List.not_mem_nil, not_false_iff, true_and]


theorem kahnVisit_spec (adj : List (List (Nat × Int))) (out0 : List Nat)
    (l : List (Nat × Int)) (s : KahnState)
    (houts : s.out = out0)
    (hlen : s.indeg.length = adj.length)
    (hnodup : (s.out ++ s.queue).Nodup)
    (hbound : ∀ x ∈ s.out ++ s.queue, x < adj.length)
    (hlt : ∀ p ∈ l, p.1 < adj.length)
    (hlnd : (l.map Prod.fst).Nodup)
    (hltarg : ∀ p ∈ l, p.1 ∉ out0)
    (hindeg : ∀ w < adj.length, s.indeg.getD w 0 =
        (remInDeg adj out0 w : Int) + (if w ∈ l.map Prod.fst then 1 else 0))
    (hq0 : ∀ w ∈ s.queue, s.indeg.getD w 0 = 0)
    (hqnl : ∀ w ∈ s.queue, w ∉ l.map Prod.fst) :
    (kahnVisit l s).out = out0 ∧
    (kahnVisit l s).indeg.length = adj.length ∧
    ((kahnVisit l s).out ++ (kahnVisit l s).queue).Nodup ∧
    (∀ x ∈ (kahnVisit l s).out ++ (kahnVisit l s).queue, x < adj.length) ∧
    (∀ w < adj.length, (kahnVisit l s).indeg.getD w 0 = (remInDeg adj out0 w : Int)) ∧
    (∀ w ∈ (kahnVisit l s).queue, (kahnVisit l s).indeg.getD w 0 = 0) ∧
    (∀ w ∈ (kahnVisit l s).queue, w ∈ s.queue ∨ w ∈ l.map Prod.fst) ∧
    (∀ w ∈ s.queue, w ∈ (kahnVisit l s).queue) ∧
    (∀ p ∈ l, remInDeg adj out0 p.1 = 0 → p.1 ∈ (kahnVisit l s).queue) := by
  induction l generalizing s with
  | nil =>
    refine ⟨houts, hlen, hnodup, hbound, ?_, hq0, fun w hw => Or.inl hw,
      fun w hw => hw, by simp⟩
    intro w hw
    have := hindeg w hw
    simpa using this
  | cons p rest ih =>
    obtain ⟨w, c⟩ := p
    have hwlt : w < adj.length := hlt (w, c) (List.mem_cons_self ..)
    have hwout : w ∉ out0 := hltarg (w, c) (List.mem_cons_self ..)
    have hwhead : w ∈ ((w, c) :: rest).map Prod.fst := by simp
    have hwq : w ∉ s.queue := fun hq => hqnl w hq hwhead
    have hwrest : w ∉ rest.map Prod.fst := by
      have := hlnd
      simp only [List.map_cons, List.nodup_cons] at this
      exact this.1
    have hdegval : s.indeg.getD w 0 = (remInDeg adj out0 w : Int) + 1 := by
      have := hindeg w hwlt
      simpa [hwhead] using this
    -- the state after processing the head edge
    set deg : Int := s.indeg.getD w 0 - 1 with hdeg
    have hdegrem : deg = (remInDeg adj out0 w : Int) := by
      rw [hdeg, hdegval]; ring
    set q1 : List Nat := if deg = 0 then s.queue ++ [w] else s.queue with hq1
    set s1 : KahnState := ⟨s.indeg.set w deg, q1, s.out⟩ with hs1
    have hstep : kahnVisit ((w, c) :: rest) s = kahnVisit rest s1 := rfl
    -- properties of s1
    have hlen1 : s1.indeg.length = adj.length := by
      rw [hs1]; simpa using hlen
    have hq1sub : ∀ x ∈ q1, x ∈ s.queue ∨ x = w := by
      intro x hx
      rw [hq1] at hx
      by_cases hd : deg = 0
      · rw [if_pos hd] at hx
        rcases List.mem_append.mp hx with h | h
        · exact Or.inl h
        · simp at h; exact Or.inr h
      · rw [if_neg hd] at hx
        exact Or.inl hx
    have hq1sup : ∀ x ∈ s.queue, x ∈ q1 := by
      intro x hx
      rw [hq1]
      by_cases hd : deg = 0
      · rw [if_pos hd]; exact List.mem_append.mpr (Or.inl hx)
      · rw [if_neg hd]; exact hx
    have hnodup1 : (s1.out ++ s1.queue).Nodup := by
      rw [hs1]
      simp only
      rw [hq1]
      by_cases hd : deg = 0
      · rw [if_pos hd, ← List.append_assoc]
        refine List.Nodup.append hnodup (List.nodup_singleton w) ?_
        intro a ha hb
        simp only [List.mem_singleton] at hb
        subst hb
        rcases List.mem_append.mp ha with h | h
        · exact hwout (houts ▸ h)
        · exact hwq h
      · rw [if_neg hd]; exact hnodup
    have hbound1 : ∀ x ∈ s1.out ++ s1.queue, x < adj.length := by
      intro x hx
      rw [hs1] at hx
      simp only at hx
      rcases List.mem_append.mp hx with h | h
      · exact hbound x (List.mem_append.mpr (Or.inl h))
      · rcases hq1sub x h with h' | h'
        · exact hbound x (List.mem_append.mpr (Or.inr h'))
        · subst h'; exact hwlt
    have hindeg1 : ∀ x < adj.length, s1.indeg.getD x 0 =
        (remInDeg adj out0 x : Int) + (if x ∈ rest.map Prod.fst then 1 else 0) := by
      intro x hx
      rw [hs1]
      simp only
      by_cases hxw : x = w
      · subst hxw
        rw [getD_set_self _ _ _ _ (hlen ▸ hwlt), hdegrem]
        simp [hwrest]
      · rw [getD_set_ne _ _ _ _ _ (fun h => hxw h.symm)]
        rw [hindeg x hx]
        have hmem : (x ∈ ((w, c) :: rest).map Prod.fst) = (x ∈ rest.map Prod.fst) := by
          simp only [List.map_cons, List.mem_cons]
          exact propext (or_iff_right hxw)
        simp only [hmem]
    have hq01 : ∀ x ∈ s1.queue, s1.indeg.getD x 0 = 0 := by
      intro x hx
      rw [hs1] at hx ⊢
      simp only at hx ⊢
      rcases hq1sub x hx with h | h
      · have hxw : x ≠ w := fun he => hwq (he ▸ h)
        rw [getD_set_ne _ _ _ _ _ (fun he => hxw he.symm)]
        exact hq0 x h
      · subst h
        rw [getD_set_self _ _ _ _ (hlen ▸ hwlt)]
        by_cases hd : deg = 0
        · exact hd
        · rw [hq1, if_neg hd] at hx
          exact absurd hx hwq
    have hqnl1 : ∀ x ∈ s1.queue, x ∉ rest.map Prod.fst := by
      intro x hx
      rw [hs1] at hx
      simp only at hx
      rcases hq1sub x hx with h | h
      · intro hm
        exact hqnl x h (by simp [hm])
      · subst h; exact hwrest
    have houts1 : s1.out = out0 := by rw [hs1]; simpa using houts
    have hlt1 : ∀ p ∈ rest, p.1 < adj.length := fun p hp => hlt p (List.mem_cons_of_mem _ hp)
    have hlnd1 : (rest.map Prod.fst).Nodup := by
      have := hlnd
      simp only [List.map_cons, List.nodup_cons] at this
      exact this.2
    have hltarg1 : ∀ p ∈ rest, p.1 ∉ out0 := fun p hp => hltarg p (List.mem_cons_of_mem _ hp)
    obtain ⟨ih1, ih2, ih3, ih4, ih5, ih6, ih7, ih8, ih9⟩ :=
      ih s1 houts1 hlen1 hnodup1 hbound1 hlt1 hlnd1 hltarg1 hindeg1 hq01 hqnl1
    rw [hstep]
    refine ⟨ih1, ih2, ih3, ih4, ih5, ih6, ?_, ?_, ?_⟩
    · intro x hx
      rcases ih7 x hx with h | h
      · rcases hq1sub x h with h' | h'
        · exact Or.inl h'
        · subst h'; exact Or.inr hwhead
      · exact Or.inr (by simp [h])
    · intro x hx
      exact ih8 x (hq1sup x hx)
    · intro p hp hrem
      rcases List.mem_cons.mp hp with heq | hmem
      · have hpw : p.1 = w := by rw [heq]
        rw [hpw] at hrem ⊢
        have hd : deg = 0 := by rw [hdegrem, hrem]; simp
        have hq : w ∈ q1 := by
          rw [hq1, if_pos hd]
          exact List.mem_append.mpr (Or.inr (by simp))
        exact ih8 w hq
      · exact ih9 p hmem hrem

theorem edgeB_lt_tgt {adj : List (List (Nat × Int))}
    (hwf : ∀ l ∈ adj, (∀ p ∈ l, p.1 < adj.length) ∧ (l.map Prod.fst).Nodup)
    {u w : Nat} (h : edgeB adj u w = true) : w < adj.length := by
  have hu : u < adj.length := edgeB_lt_src h
  have hmem : w ∈ (adj.getD u []).map Prod.fst := edgeB_iff_mem.mp h
  obtain ⟨p, hp, hpw⟩ := List.mem_map.mp hmem
  have hl : adj.getD u [] ∈ adj := by
    rw [List.getD_eq_getElem?_getD, List.getElem?_eq_getElem hu]
    exact List.getElem_mem ..
  exact hpw ▸ (hwf _ hl).1 p hp

theorem kahnStep_inv (adj : List (List (Nat × Int)))
    (hwf : ∀ l ∈ adj, (∀ p ∈ l, p.1 < adj.length) ∧ (l.map Prod.fst).Nodup)
    (s : KahnState) (hinv : KahnInv adj s) (v : Nat) (rest : List Nat)
    (hq : s.queue = v :: rest) :
    KahnInv adj (kahnVisit (adj.getD v []) ⟨s.indeg, rest, s.out ++ [v]⟩) ∧
    (kahnVisit (adj.getD v []) ⟨s.indeg, rest, s.out ++ [v]⟩).out = s.out ++ [v] := by
  have hvq : v ∈ s.queue := by rw [hq]; exact List.mem_cons_self ..
  have hvlt : v < adj.length := hinv.bounded v (List.mem_append.mpr (Or.inr hvq))
  have hdisj : List.Disjoint s.out s.queue := ((List.nodup_append).mp hinv.nodup).2.2
  have hvout : v ∉ s.out := fun h => hdisj h hvq
  have hvz : s.indeg.getD v 0 = 0 := hinv.queueZero v hvq
  have hvrem : remInDeg adj s.out v = 0 := by
    have := hinv.indegSpec v hvlt
    rw [hvz] at this
    exact_mod_cast this.symm
  have hvsrc : ∀ u, edgeB adj u v = true → u ∈ s.out :=
    (remInDeg_eq_zero_iff adj s.out v).mp hvrem
  have hladj : adj.getD v [] ∈ adj := by
    rw [List.getD_eq_getElem?_getD, List.getElem?_eq_getElem hvlt]
    exact List.getElem_mem ..
  have hlprops := hwf _ hladj
  set out0 : List Nat := s.out ++ [v] with hout0
  set s0 : KahnState := ⟨s.indeg, rest, out0⟩ with hs0
  -- preconditions of kahnVisit_spec
  have houts : s0.out = out0 := rfl
  have hlen0 : s0.indeg.length = adj.length := hinv.indegLen
  have hul : s0.out ++ s0.queue = s.out ++ s.queue := by
    rw [hs0]
    simp only [hout0]
    rw [List.append_assoc, List.singleton_append, ← hq]
  have hnodup0 : (s0.out ++ s0.queue).Nodup := by rw [hul]; exact hinv.nodup
  have hbound0 : ∀ x ∈ s0.out ++ s0.queue, x < adj.length := by
    rw [hul]; exact hinv.bounded
  have hlt0 : ∀ p ∈ adj.getD v [], p.1 < adj.length := hlprops.1
  have hlnd0 : ((adj.getD v []).map Prod.fst).Nodup := hlprops.2
  have hedge_mem : ∀ w, edgeB adj v w = true ↔ w ∈ (adj.getD v []).map Prod.fst :=
    fun w => edgeB_iff_mem
  have hltarg0 : ∀ p ∈ adj.getD v [], p.1 ∉ out0 := by
    intro p hp hmem
    have hedge : edgeB adj v p.1 = true :=
      (hedge_mem p.1).mpr (List.mem_map.mpr ⟨p, hp, rfl⟩)
    rcases List.mem_append.mp hmem with h | h
    · exact hvout (hinv.outOrder v p.1 hedge h).1
    · have hpv : p.1 = v := by simpa using h
      rw [hpv] at hedge
      exact hvout (hvsrc v hedge)
  have hindeg0 : ∀ w < adj.length, s0.indeg.getD w 0 =
      (remInDeg adj out0 w : Int) + (if w ∈ (adj.getD v []).map Prod.fst then 1 else 0) := by
    intro w hw
    have h1 : s.indeg.getD w 0 = (remInDeg adj s.out w : Int) := hinv.indegSpec w hw
    have h2 := remInDeg_snoc adj s.out v w hvlt hvout
    have h3 : (if edgeB adj v w = true then (1 : ℕ) else 0) =
        (if w ∈ (adj.getD v []).map Prod.fst then 1 else 0) := by
      by_cases he : edgeB adj v w = true
      · rw [if_pos he, if_pos ((hedge_mem w).mp he)]
      · rw [if_neg he, if_neg (fun hm => he ((hedge_mem w).mpr hm))]
    rw [hs0]
    simp only
    rw [h1, h2, ← hout0]
    rw [h3] at h2 ⊢
    push_cast
    ring
  have hq00 : ∀ w ∈ s0.queue, s0.indeg.getD w 0 = 0 := by
    intro w hw
    exact hinv.queueZero w (by rw [hq]; exact List.mem_cons_of_mem _ hw)
  have hqnl0 : ∀ w ∈ s0.queue, w ∉ (adj.getD v []).map Prod.fst := by
    intro w hw hmem
    have hedge : edgeB adj v w = true := (hedge_mem w).mpr hmem
    have hwq : w ∈ s.queue := by rw [hq]; exact List.mem_cons_of_mem _ hw
    have hwz : s.indeg.getD w 0 = 0 := hinv.queueZero w hwq
    have hwlt : w < adj.length := hinv.bounded w (List.mem_append.mpr (Or.inr hwq))
    have hwrem : remInDeg adj s.out w = 0 := by
      have := hinv.indegSpec w hwlt
      rw [hwz] at this
      exact_mod_cast this.symm
    have := (remInDeg_eq_zero_iff adj s.out w).mp hwrem v hedge
    exact hvout this
  obtain ⟨c1, c2, c3, c4, c5, c6, c7, c8, c9⟩ :=
    kahnVisit_spec adj out0 (adj.getD v []) s0 houts hlen0 hnodup0 hbound0 hlt0 hlnd0
      hltarg0 hindeg0 hq00 hqnl0
  refine ⟨⟨c2, ?_, c4, ?_, c6, ?_, ?_⟩, c1⟩
  · exact c3
  · intro w hw; rw [c1]; exact c5 w hw
  · -- stuckNonzero
    intro w hw hwout0 hwq0
    rw [c1] at hwout0
    rw [c5 w hw]
    intro hzero
    have hrem : remInDeg adj out0 w = 0 := by exact_mod_cast hzero
    by_cases he : edgeB adj v w = true
    · -- w is a target of v and reached zero, so it was enqueued
      obtain ⟨p, hp, hpw⟩ := List.mem_map.mp ((hedge_mem w).mp he)
      have := c9 p hp (by rw [hpw]; exact hrem)
      rw [hpw] at this
      exact hwq0 this
    · have hsnoc := remInDeg_snoc adj s.out v w hvlt hvout
      rw [if_neg he, hrem] at hsnoc
      have hwsout : w ∉ s.out := fun h => hwout0 (List.mem_append.mpr (Or.inl h))
      have hwnv : w ≠ v := fun h => hwout0 (List.mem_append.mpr (Or.inr (by simp [h])))
      have hwsq : w ∉ s.queue := by
        rw [hq]
        intro hmem
        rcases List.mem_cons.mp hmem with h | h
        · exact hwnv h
        · exact hwq0 (c8 w h)
      have := hinv.stuckNonzero w hw hwsout hwsq
      rw [hinv.indegSpec w hw] at this
      rw [hsnoc] at this
      simp at this
  · -- outOrder
    intro u w hedge hwmem
    rw [c1] at hwmem ⊢
    rcases List.mem_append.mp hwmem with h | h
    · obtain ⟨hu, hsub⟩ := hinv.outOrder u w hedge h
      exact ⟨List.mem_append.mpr (Or.inl hu),
        hsub.trans (List.sublist_append_left s.out [v])⟩
    · have hwv : w = v := by simpa using h
      subst hwv
      have hu : u ∈ s.out := hvsrc u hedge
      refine ⟨List.mem_append.mpr (Or.inl hu), ?_⟩
      have h1 : [u].Sublist s.out := List.singleton_sublist.mpr hu
      have h2 : [w].Sublist [w] := List.Sublist.refl _
      exact List.Sublist.append h1 h2


theorem kahnLoop_inv (adj : List (List (Nat × Int)))
    (hwf : ∀ l ∈ adj, (∀ p ∈ l, p.1 < adj.length) ∧ (l.map Prod.fst).Nodup)
    (fuel : Nat) (s : KahnState) (hinv : KahnInv adj s) :
    KahnInv adj (kahnLoop adj fuel s) ∧
    ((kahnLoop adj fuel s).queue = [] ∨
      (kahnLoop adj fuel s).out.length = s.out.length + fuel) := by
  induction fuel generalizing s with
  | zero => exact ⟨hinv, Or.inr rfl⟩
  | succ fuel ih =>
    cases hq : s.queue with
    | nil =>
      rw [kahnLoop, hq]
      exact ⟨hinv, Or.inl hq⟩
    | cons v rest =>
      rw [kahnLoop, hq]
      obtain ⟨hinv1, hout1⟩ := kahnStep_inv adj hwf s hinv v rest hq
      obtain ⟨hfin, hlen⟩ := ih _ hinv1
      refine ⟨hfin, ?_⟩
      rcases hlen with h | h
      · exact Or.inl h
      · right
        rw [h, hout1]
        simp
        omega

theorem kahnInit_inv (g : RawGraph) (hwf : g.WF) :
    KahnInv g.adj ⟨g.indegInit,
      (List.range g.adj.length).filter (fun v => g.indegInit.getD v 0 = 0), []⟩ := by
  have hwf' : ∀ l ∈ g.adj, (∀ p ∈ l, p.1 < g.adj.length) ∧ (l.map Prod.fst).Nodup := hwf
  have hlen : g.indegInit.length = g.adj.length := by
    unfold RawGraph.indegInit
    have : ∀ (lists : List (List (Nat × Int))) (indeg : List Int),
        (indegAux lists indeg).length = indeg.length := by
      intro lists
      induction lists with
      | nil => intro indeg; rfl
      | cons l rest ih =>
        intro indeg
        rw [indegAux, ih, bumpTargets_length]
    rw [this]
    simp
  constructor
  · exact hlen
  · simp only [List.nil_append]
    exact (List.nodup_range _).filter _
  · intro v hv
    simp only [List.nil_append, List.mem_filter, List.mem_range] at hv
    exact hv.1
  · intro w hw
    simp only
    rw [indegInit_spec g hwf w hw]
  · intro w hw
    simp only [List.mem_filter] at hw
    exact of_decide_eq_true hw.2
  · intro w hw hout hq
    simp only [List.not_mem_nil] at hout
    intro hzero
    exact hq (List.mem_filter.mpr ⟨List.mem_range.mpr hw, decide_eq_true hzero⟩)
  · intro u w hedge hw
    exact absurd hw (List.not_mem_nil w)

theorem indexOf_lt_of_pair_sublist {l : List Nat} (hnd : l.Nodup) {a b : Nat}
    (h : [a, b].Sublist l) : l.indexOf a < l.indexOf b := by
  induction l with
  | nil => exact absurd (List.eq_nil_of_sublist_nil h) (by simp)
  | cons x t ih =>
    cases h with
    | cons _ h' =>
      -- [a, b] <+ t
      have ha : a ∈ t := h'.subset (by simp)
      have hb : b ∈ t := h'.subset (by simp)
      have hxa : x ≠ a := fun he => (List.nodup_cons.mp hnd).1 (he ▸ ha)
      have hxb : x ≠ b := fun he => (List.nodup_cons.mp hnd).1 (he ▸ hb)
      rw [List.indexOf_cons_ne _ hxa, List.indexOf_cons_ne _ hxb]
      have := ih (List.nodup_cons.mp hnd).2 h'
      omega
    | cons₂ _ h' =>
      -- x = a, [b] <+ t
      have hb : b ∈ t := h'.subset (by simp)
      have hab : a ≠ b := fun he => (List.nodup_cons.mp hnd).1 (he ▸ hb)
      rw [List.indexOf_cons_self]
      rw [List.indexOf_cons_ne _ hab]
      omega

theorem perm_range_of_nodup (out : List Nat) (n : Nat) (hnd : out.Nodup)
    (hb : ∀ v ∈ out, v < n) (hlen : out.length = n) : out.Perm (List.range n) := by
  have hsub : out.toFinset ⊆ Finset.range n := by
    intro v hv
    exact Finset.mem_range.mpr (hb v (List.mem_toFinset.mp hv))
  have hcard : out.toFinset.card = n := by
    rw [List.toFinset_card_of_nodup hnd, hlen]
  have heq : out.toFinset = Finset.range n := by
    apply Finset.eq_of_subset_of_card_le hsub
    rw [hcard]
    simp
  apply List.perm_of_nodup_nodup_toFinset_eq hnd (List.nodup_range n)
  rw [heq]
  ext v
  simp [List.mem_toFinset, List.mem_range]

theorem mem_of_nodup_bounded_full (out : List Nat) (n : Nat) (hnd : out.Nodup)
    (hb : ∀ v ∈ out, v < n) (hlen : out.length = n) : ∀ v < n, v ∈ out := by
  intro v hv
  have := perm_range_of_nodup out n hnd hb hlen
  exact this.mem_iff.mpr (List.mem_range.mpr hv)


theorem transGen_indexOf_lt (g : RawGraph) (out : List Nat) (hnd : out.Nodup)
    (hall : ∀ u w, edgeB g.adj u w = true → [u, w].Sublist out)
    {a b : Nat} (h : Relation.TransGen (EdgeRel g) a b) :
    out.indexOf a < out.indexOf b := by
  induction h with
  | single he => exact indexOf_lt_of_pair_sublist hnd (hall _ _ he)
  | tail hab hbc ih => exact ih.trans (indexOf_lt_of_pair_sublist hnd (hall _ _ hbc))

theorem topSort_some_spec (g : RawGraph) (hwf : g.WF) (out : List Nat)
    (h : g.topSort = some out) :
    out.Nodup ∧ out.length = g.adj.length ∧ (∀ v ∈ out, v < g.adj.length) ∧
    (∀ v < g.adj.length, v ∈ out) ∧
    (∀ u w, edgeB g.adj u w = true → [u, w].Sublist out) := by
  obtain ⟨hinv, _⟩ := kahnLoop_inv g.adj hwf g.adj.length _ (kahnInit_inv g hwf)
  unfold RawGraph.topSort at h
  simp only at h
  split at h
  case isFalse => exact absurd h (by simp)
  case isTrue hlen =>
    injection h with h'
    rw [← h']
    have hnd := (List.nodup_append.mp hinv.nodup).1
    have hb := fun v hv => hinv.bounded v (List.mem_append.mpr (Or.inl hv))
    have hfull := mem_of_nodup_bounded_full _ g.adj.length hnd hb hlen
    refine ⟨hnd, hlen, hb, hfull, ?_⟩
    intro u w hedge
    have hw : w < g.adj.length := edgeB_lt_tgt hwf hedge
    exact (hinv.outOrder u w hedge (hfull w hw)).2

theorem hasCycle_of_topSort_none (g : RawGraph) (hwf : g.WF) (h : g.topSort = none) :
    HasCycle g := by
  obtain ⟨hinv, hdisj⟩ := kahnLoop_inv g.adj hwf g.adj.length _ (kahnInit_inv g hwf)
  unfold RawGraph.topSort at h
  simp only at h
  split at h
  case isTrue => exact absurd h (by simp)
  case isFalse hlen =>
    set final := kahnLoop g.adj g.adj.length
      ⟨g.indegInit, (List.range g.adj.length).filter (fun v => g.indegInit.getD v 0 = 0), []⟩
      with hfinal
    have hqe : final.queue = [] := by
      rcases hdisj with h' | h'
      · exact h'
      · rw [h'] at hlen
        simp at hlen
    have hnd : final.out.Nodup := (List.nodup_append.mp hinv.nodup).1
    have hb : ∀ v ∈ final.out, v < g.adj.length := fun v hv =>
      hinv.bounded v (List.mem_append.mpr (Or.inl hv))
    have hmissing : ∃ v, v < g.adj.length ∧ v ∉ final.out := by
      by_contra hno
      push_neg at hno
      have hsub2 : Finset.range g.adj.length ⊆ final.out.toFinset := fun v hv =>
        List.mem_toFinset.mpr (hno v (Finset.mem_range.mp hv))
      have hsub1 : final.out.toFinset ⊆ Finset.range g.adj.length := fun v hv =>
        Finset.mem_range.mpr (hb v (List.mem_toFinset.mp hv))
      have heq : final.out.toFinset = Finset.range g.adj.length :=
        Finset.Subset.antisymm hsub1 hsub2
      have : final.out.length = g.adj.length := by
        rw [← List.toFinset_card_of_nodup hnd, heq, Finset.card_range]
      exact hlen this
    obtain ⟨v0, hv0, hv0out⟩ := hmissing
    by_contra hnc
    have hTfin : Finite {x : Nat // x < g.adj.length ∧ x ∉ final.out} := by
      apply Finite.of_injective
        (fun a : {x : Nat // x < g.adj.length ∧ x ∉ final.out} => (⟨a.1, a.2.1⟩ : Fin g.adj.length))
      intro a b hab
      exact Subtype.ext (by simpa using congrArg Fin.val hab)
    haveI : IsTrans {x : Nat // x < g.adj.length ∧ x ∉ final.out}
        (fun a b => Relation.TransGen (EdgeRel g) a.1 b.1) :=
      ⟨fun a b c hab hbc => hab.trans hbc⟩
    haveI : IsIrrefl {x : Nat // x < g.adj.length ∧ x ∉ final.out}
        (fun a b => Relation.TransGen (EdgeRel g) a.1 b.1) :=
      ⟨fun a ha => hnc ⟨a.1, ha⟩⟩
    have hwfrel : WellFounded
        (fun (a b : {x : Nat // x < g.adj.length ∧ x ∉ final.out}) =>
          Relation.TransGen (EdgeRel g) a.1 b.1) :=
      Finite.wellFounded_of_trans_of_irrefl _
    obtain ⟨m, _, hmin⟩ := hwfrel.has_min Set.univ ⟨⟨v0, hv0, hv0out⟩, Set.mem_univ _⟩
    have hstuck := hinv.stuckNonzero m.1 m.2.1 m.2.2 (by rw [hqe]; exact List.not_mem_nil _)
    rw [hinv.indegSpec m.1 m.2.1] at hstuck
    have hrem : remInDeg g.adj final.out m.1 ≠ 0 := by
      intro hz
      rw [hz] at hstuck
      exact hstuck rfl
    obtain ⟨u, hedge, huout⟩ : ∃ u, edgeB g.adj u m.1 = true ∧ u ∉ final.out := by
      by_contra hall
      push_neg at hall
      exact hrem ((remInDeg_eq_zero_iff g.adj final.out m.1).mpr (fun u he => hall u he))
    have hu : u < g.adj.length := edgeB_lt_src hedge
    exact hmin ⟨u, hu, huout⟩ (Set.mem_univ _) (Relation.TransGen.single hedge)

theorem acyclic_of_topSort_some (g : RawGraph) (hwf : g.WF) (out : List Nat)
    (h : g.topSort = some out) : ¬ HasCycle g := by
  rintro ⟨v, hcyc⟩
  obtain ⟨hnd, _, _, hfull, hsub⟩ := topSort_some_spec g hwf out h
  exact absurd (transGen_indexOf_lt g out hnd (fun u w he => hsub u w he) hcyc)
    (lt_irrefl _)

theorem topSort_some_of_acyclic (g : RawGraph) (hwf : g.WF) (hna : ¬ HasCycle g) :
    ∃ out, g.topSort = some out := by
  cases h : g.topSort with
  | none => exact absurd (hasCycle_of_topSort_none g hwf h) hna
  | some out => exact ⟨out, rfl⟩

theorem topSort_none_of_hasCycle (g : RawGraph) (hwf : g.WF) (hc : HasCycle g) :
    g.topSort = none := by
  cases h : g.topSort with
  | none => rfl
  | some out => exact absurd hc (acyclic_of_topSort_some g hwf out h)

theorem map_getD_range {α : Type} (l : List α) (d : α) :
    (List.range l.length).map (fun j => l.getD j d) = l := by
  induction l with
  | nil => rfl
  | cons a t ih =>
    rw [List.length_cons, List.range_succ_eq_map, List.map_cons, List.map_map]
    have hmap : (List.range t.length).map ((fun j => (a :: t).getD j d) ∘ (· + 1)) =
        (List.range t.length).map (fun j => t.getD j d) :=
      List.map_congr_left (fun j _ => rfl)
    rw [hmap, ih]
    rfl


/-- C6: for every built graph (well-formed raw graph of the deployments)
that is a DAG, `DeployOrder()` returns a permutation of the vertices —
the deployment refs — in which every vertex appears after all of its
outgoing neighbours: for every edge `u → w` (u depends on w), w's
position precedes u's in the emitted order. For every graph containing a
cycle (self-loops included), `DeployOrder()` fails with the cycle
error. -/
theorem c6_deployorder_reverse_topological (g : Graph) (raw : RawGraph)
    (hraw : g.rawGraph = some raw) (hlen : g.deployments.length = raw.adj.length)
    (hwf : raw.WF) :
    (¬ HasCycle raw →
      ∃ ord : List Nat,
        ord.Perm (List.range raw.adj.length) ∧
        (∀ u w, EdgeRel raw u w → ord.indexOf w < ord.indexOf u) ∧
        g.DeployOrder = .ok (ord.map (fun j => g.deployments.getD j default)) ∧
        (ord.map (fun j => g.deployments.getD j default)).Perm g.deployments) ∧
    (HasCycle raw → g.DeployOrder = .err "dependency cycles exist") := by
  constructor
  · intro hna
    obtain ⟨out, hts⟩ := topSort_some_of_acyclic raw hwf hna
    obtain ⟨hnd, hlenout, hb, hfull, hsub⟩ := topSort_some_spec raw hwf out hts
    have hperm : out.Perm (List.range raw.adj.length) :=
      perm_range_of_nodup out _ hnd hb hlenout
    refine ⟨out.reverse, ?_, ?_, ?_, ?_⟩
    · exact out.reverse_perm.trans hperm
    · intro u w hedge
      have hpair : [w, u].Sublist out.reverse := by
        have h1 := (hsub u w hedge).reverse
        simpa using h1
      exact indexOf_lt_of_pair_sublist (List.nodup_reverse.mpr hnd) hpair
    · unfold Graph.DeployOrder
      rw [hraw]
      simp only [hts]
    · have h1 : (out.reverse.map (fun j => g.deployments.getD j default)).Perm
          ((List.range raw.adj.length).map (fun j => g.deployments.getD j default)) :=
        (out.reverse_perm.trans hperm).map _
      have h2 : (List.range raw.adj.length).map (fun j => g.deployments.getD j default) =
          g.deployments := by
        rw [← hlen]
        exact map_getD_range g.deployments default
      rw [h2] at h1
      exact h1
  · intro hc
    unfold Graph.DeployOrder
    rw [hraw]
    simp only [topSort_none_of_hasCycle raw hwf hc]

/-- Witness for `c6_deployorder_reverse_topological`: the two-vertex
chain graph is acyclic and orders the dependency first; the one-vertex
self-loop graph fails. -/
theorem c6_witness :
    (∃ ord : List Nat,
      ord.Perm (List.range 2) ∧
      (∀ u w, EdgeRel ⟨[[(1, 1)], []]⟩ u w → ord.indexOf w < ord.indexOf u) ∧
      chainGraph.DeployOrder =
        .ok (ord.map (fun j => chainGraph.deployments.getD j default)) ∧
      (ord.map (fun j => chainGraph.deployments.getD j default)).Perm
        chainGraph.deployments) ∧
    loopGraph.DeployOrder = .err "dependency cycles exist" :=
  ⟨(c6_deployorder_reverse_topological chainGraph ⟨[[(1, 1)], []]⟩ rfl rfl (by decide)).1
      (acyclic_of_topSort_some ⟨[[(1, 1)], []]⟩ (by decide) [0, 1] rfl),
   (c6_deployorder_reverse_topological loopGraph ⟨[[(0, 0)]]⟩ rfl rfl (by decide)).2
      ⟨0, Relation.TransGen.single (show EdgeRel ⟨[[(0, 0)]]⟩ 0 0 from rfl)⟩⟩

end Mesosdef
